import Mathlib

set_option maxHeartbeats 1000000

/-!
Shallow embedding of the decomposition/combination engine of the hanzi game
(`gameLogic.ts` and the CLI command dispatcher).  Symbols are plain strings;
the decomposition graph and the reverse combination index are association
lists, mirroring JS object property lookup.  Recursions of the source that
carry an explicit cycle guard are embedded with a fuel parameter together with
a proof that a computable fuel bound suffices; the one recursion of the source
without a guard (`isPartOfDecomposition`) is embedded with fuel only, `none`
meaning the depth budget was exhausted.
-/

/-- A decomposition graph: association list from a symbol to the ordered list
of its immediate component symbols (the `components` field of the TS
decomposition entry; the spatial operator is not interpreted by the engine). -/
abbrev Graph := List (String × List String)

/-- Card record from the TS `Card` type. -/
structure Card where
  id : String
  character : String
  isLeaf : Bool
deriving DecidableEq

/-- The game data used by the engine: the decomposition graph and the reverse
combination index (association list from a canonical key to the candidate
symbols producible from exactly that immediate multiset). -/
structure GameData where
  charToDecomposition : Graph
  componentsToChars : List (String × List String)
deriving DecidableEq

/-- A valid next step found by the hint search (TS inline record
`cardIds / result / leadsToTarget` of `findValidNextSteps`). -/
structure Step where
  cardIds : List String
  result : String
  leadsToTarget : Bool
deriving DecidableEq

/-- Hint record from the TS `Hint` type; `isAnswer` is an optional field, so it
is embedded as `Option Bool` with `none` for the absent field. -/
structure Hint where
  cardIds : List String
  used : Bool
  isAnswer : Option Bool
deriving DecidableEq

/-- Association-list lookup, mirroring a JS object property access
(`data.charToDecomposition[c]`, `data.componentsToChars[key]`). -/
def lookupG (g : List (String × List String)) (c : String) : Option (List String) :=
  (g.find? (fun p => p.1 == c)).map (fun p => p.2)

/-- Keys of a graph, in entry order. -/
def graphKeys (g : Graph) : List String := g.map Prod.fst

/-- Number of graph keys not yet on the expansion path: the quantity that
strictly decreases at every recursive call of the guarded leaf reduction. -/
def pathMeasure (g : Graph) (path : List String) : Nat :=
  ((graphKeys g).filter (fun k => !(path.contains k))).length

/-- Sequencing of the recursive results of the components of one symbol: the
first component call that exhausts its fuel makes the whole call report
exhaustion, otherwise the leaf lists are concatenated in component order. -/
def seqLeaves : List (Option (List String)) → Option (List String)
  | [] => some []
  | none :: _ => none
  | some l :: rest =>
    match seqLeaves rest with
    | none => none
    | some ls => some (l ++ ls)

/-- Fuel-indexed embedding of the TS `decomposeToLeaves` (the general recursion
made explicit: `none` means the recursion-depth budget `fuel` was exhausted).
A symbol already on `path` is returned as the singleton `[character]`; a symbol
absent from the graph is a true leaf; otherwise each immediate component is
reduced with the extended path and the results are concatenated in order. -/
def decomposeToLeavesF (g : Graph) : Nat → String → List String → Option (List String)
  | 0, _, _ => none
  | fuel + 1, character, path =>
    if path.contains character then some [character]
    else
      match lookupG g character with
      | none => some [character]
      | some comps =>
          seqLeaves (comps.map (fun comp => decomposeToLeavesF g fuel comp (path ++ [character])))

/-- Total leaf reduction: `decomposeToLeavesF` run with the provably sufficient
fuel `pathMeasure g path + 1` (sufficiency is proved below as
`decomposeToLeavesF_complete`; the `[]` default branch is never reached). -/
def decomposeToLeaves (g : Graph) (character : String) (path : List String) : List String :=
  (decomposeToLeavesF g (pathMeasure g path + 1) character path).getD []

/-- Lexicographic comparison of two character lists by code point: the order
the JS default string comparator uses on the symbols handled by the engine. -/
def charListLt : List Char → List Char → Bool
  | [], [] => false
  | [], _ :: _ => true
  | _ :: _, [] => false
  | a :: as, b :: bs =>
    if a.toNat < b.toNat then true
    else if b.toNat < a.toNat then false
    else charListLt as bs

/-- Non-strict string comparison derived from `charListLt`. -/
def strLe (a b : String) : Bool := !(charListLt b.toList a.toList)

/-- Insertion of a string into a sorted list of strings. -/
def insertSorted (s : String) : List String → List String
  | [] => [s]
  | t :: rest => if strLe s t then s :: t :: rest else t :: insertSorted s rest

/-- Sorting of a list of symbols, mirroring the JS `Array.prototype.sort()`
call on an array of strings (lexicographic order). -/
def sortStrings (l : List String) : List String := l.foldr insertSorted []

/-- Canonical multiset key: sorted concatenation of a group of symbols
(the TS `chars.slice().sort().join('')`). -/
def canonicalKey (chars : List String) : String := String.join (sortStrings chars)

/-- Entity-reference test, mirroring the TS
`word.startsWith('&') && word.endsWith(';')`. -/
def isEntityRef (word : String) : Bool :=
  word.toList.head? == some '&' && word.toList.getLast? == some ';'

/-- Embedding of the TS `getComponentsForWord`: a single character or an entity
reference is reduced directly with a fresh path; a multi-character word is
reduced character by character, each with a fresh empty path, and the results
are concatenated (duplicates preserved).  The TS single-character test
`word.length === 1 || [...word].length === 1` is the code-point test for
well-formed strings, which is `String.length` here. -/
def getComponentsForWord (data : GameData) (word : String) : List String :=
  if isEntityRef word || word.length == 1 then
    decomposeToLeaves data.charToDecomposition word []
  else
    (word.toList.map (fun ch => decomposeToLeaves data.charToDecomposition ch.toString [])).flatten

/-- Flattened leaf multiset of a selection of symbols (the
`selectedLeafComponents` array of the TS `hasEnoughComponents`). -/
def selectionLeaves (g : Graph) (selectedChars : List String) : List String :=
  (selectedChars.map (fun ch => decomposeToLeaves g ch [])).flatten

/-- Embedding of the TS `hasEnoughComponents`: the selected symbols are first
reduced to their flattened leaf multiset, and every distinct required component
must occur there at least as often as it occurs among the requirements
(iterating over the distinct required components mirrors iterating over the
entries of the TS `requiredCounts` map). -/
def hasEnoughComponents (data : GameData) (selectedChars requiredComponents : List String) : Bool :=
  requiredComponents.dedup.all (fun ch =>
    decide (requiredComponents.count ch ≤ (selectionLeaves data.charToDecomposition selectedChars).count ch))

/-- Subset of `chars` selected by the bits of `mask` (bit `j` of the TS loop
variable `i` selects `selectedChars[j]`; the head corresponds to bit 0). -/
def subsetOfMask : List String → Nat → List String
  | [], _ => []
  | c :: rest, mask =>
    if mask % 2 == 1 then c :: subsetOfMask rest (mask / 2)
    else subsetOfMask rest (mask / 2)

/-- Insertion into the accumulated JS `Set` (insertion order preserved,
duplicates ignored). -/
def addUnique (l : List String) (c : String) : List String :=
  if l.contains c then l else l ++ [c]

/-- Inner loop of the TS `checkSubset`: each reverse-index match is kept only
if the subset's symbols contain enough of each of its required components. -/
def candidatesLoop (data : GameData) (chars : List String) : List String → List String → List String
  | [], acc => acc
  | cand :: rest, acc =>
    if hasEnoughComponents data chars (getComponentsForWord data cand) then
      candidatesLoop data chars rest (addUnique acc cand)
    else
      candidatesLoop data chars rest acc

/-- Embedding of the TS `checkSubset` closure of `findPossibleCombinations`. -/
def checkSubset (data : GameData) (acc : List String) (chars : List String) : List String :=
  if chars.isEmpty then acc
  else
    match lookupG data.componentsToChars (canonicalKey chars) with
    | none => acc
    | some found => candidatesLoop data chars found acc

/-- Embedding of the TS `findPossibleCombinations`: every non-empty subset of
the selected cards' symbols (bitmasks `1 .. 2^n - 1`) is checked against the
reverse index and the containment filter; accepted candidates are accumulated
into a set in insertion order. -/
def findPossibleCombinations (selectedCards : List Card) (data : GameData) : List String :=
  if selectedCards.isEmpty then []
  else
    (List.range (2 ^ (selectedCards.map (fun c => c.character)).length - 1)).foldl
      (fun acc k => checkSubset data acc (subsetOfMask (selectedCards.map (fun c => c.character)) (k + 1)))
      []

/-- Short-circuiting disjunction over the recursive calls of
`isPartOfDecomposition` on the components of the target: the first call that
exhausts its fuel makes the whole loop report exhaustion. -/
def isPartAny (f : String → Option Bool) : List String → Option Bool
  | [] => some false
  | c :: rest =>
    match f c with
    | none => none
    | some true => some true
    | some false => isPartAny f rest

/-- Fuel-indexed embedding of the TS `isPartOfDecomposition`.  The source
carries no cycle guard: the recursion walks the immediate-component edges of
the graph unconditionally, so on a cyclic graph no finite fuel suffices
(`none` means the recursion-depth budget was exhausted). -/
def isPartOfDecompositionF (g : Graph) : Nat → String → String → Option Bool
  | 0, _, _ => none
  | fuel + 1, ch, target =>
    match lookupG g target with
    | none => some false
    | some comps =>
      if comps.contains ch then some true
      else isPartAny (fun comp => isPartOfDecompositionF g fuel ch comp) comps

/-- All index pairs `i < j` of a list, in the order of the TS double loop. -/
def pairsOf : List α → List (α × α)
  | [] => []
  | x :: rest => rest.map (fun y => (x, y)) ++ pairsOf rest

/-- All index triples `i < j < k` of a list, in the order of the TS triple loop. -/
def triplesOf : List α → List (α × α × α)
  | [] => []
  | x :: rest => (pairsOf rest).map (fun p => (x, p.1, p.2)) ++ triplesOf rest

/-- The card groups examined by `findValidNextSteps`: all pairs first, then all
triples, in source loop order. -/
def hintGroups (cards : List Card) : List (List Card) :=
  (pairsOf cards).map (fun p => [p.1, p.2]) ++
    (triplesOf cards).map (fun p => [p.1, p.2.1, p.2.2])

/-- Loop over the possible results of one card group in `findValidNextSteps`:
a result passing the containment check is kept iff it is the target itself or
(`isIntermediate`) a path member of the target's decomposition; the
path-membership test is only invoked when the result is not the target,
mirroring the TS short-circuit `!isTarget && isPartOfDecomposition(...)`. -/
def resultsLoopF (fuel : Nat) (data : GameData) (t : String) (chars ids : List String) :
    List String → Option (List Step)
  | [] => some []
  | result :: rest =>
    if hasEnoughComponents data chars (getComponentsForWord data result) then
      match (if result == t then some false
             else isPartOfDecompositionF data.charToDecomposition fuel result t) with
      | none => none
      | some isIntermediate =>
        if result == t || isIntermediate then
          (resultsLoopF fuel data t chars ids rest).map
            (fun more => ({ cardIds := ids, result := result, leadsToTarget := true } : Step) :: more)
        else
          resultsLoopF fuel data t chars ids rest
    else
      resultsLoopF fuel data t chars ids rest

/-- Steps contributed by one card group: its canonical key is looked up in the
reverse index (a miss yields zero candidates, the TS `|| []`). -/
def stepsForGroupF (fuel : Nat) (data : GameData) (t : String) (grp : List Card) :
    Option (List Step) :=
  resultsLoopF fuel data t (grp.map (fun c => c.character)) (grp.map (fun c => c.id))
    ((lookupG data.componentsToChars (canonicalKey (grp.map (fun c => c.character)))).getD [])

/-- Concatenation of the steps of all examined card groups, in group order. -/
def collectGroupsF (fuel : Nat) (data : GameData) (t : String) : List (List Card) → Option (List Step)
  | [] => some []
  | grp :: rest =>
    match stepsForGroupF fuel data t grp with
    | none => none
    | some s => (collectGroupsF fuel data t rest).map (fun more => s ++ more)

/-- Embedding of the TS `findValidNextSteps`. -/
def findValidNextStepsF (fuel : Nat) (data : GameData) (t : String) (cards : List Card) :
    Option (List Step) :=
  collectGroupsF fuel data t (hintGroups cards)

/-- The TS `validSteps.sort(...)` with the two-class comparator that puts steps
whose result is the target first: a stable sort by a two-class comparator is
exactly the stable partition. -/
def stepTargetFirst (t : String) (steps : List Step) : List Step :=
  steps.filter (fun s => s.result == t) ++ steps.filter (fun s => s.result != t)

/-- The hint-selection loop of `generateHints`: ranked steps are scanned and
the first three with pairwise distinct card-id sets are kept.  The TS
`step.cardIds.sort()` mutates the step in place, so both the deduplication key
and the pushed hint use the sorted ids; `count` is the current number of
accumulated hints. -/
def selectHints : List Step → List String → Nat → List Hint
  | [], _, _ => []
  | step :: rest, used, count =>
    if !(used.contains (String.intercalate "," (sortStrings step.cardIds))) && count < 3 then
      { cardIds := sortStrings step.cardIds, used := false, isAnswer := none } ::
        selectHints rest (String.intercalate "," (sortStrings step.cardIds) :: used) (count + 1)
    else
      selectHints rest used count

/-- Embedding of the TS `generateHints`.  If some available card's symbol
equals the target, a single `isAnswer` hint referencing the first such card is
returned immediately with no search; otherwise the valid next steps are
computed, ranked, and at most three hints with distinct card-id sets kept. -/
def generateHintsF (fuel : Nat) (data : GameData) (targetWord : String) (cards : List Card) :
    Option (List Hint) :=
  match cards.find? (fun c => c.character == targetWord) with
  | some c0 => some [{ cardIds := [c0.id], used := false, isAnswer := some true }]
  | none =>
    match findValidNextStepsF fuel data targetWord cards with
    | none => none
    | some validSteps => some (selectHints (stepTargetFirst targetWord validSteps) [] 0)

/-- Embedding of the TS `combineCards`: every card whose id appears among the
selected cards is removed, and a single new card holding `targetChar` is
appended, its `isLeaf` flag derived from the graph.  The TS id contains
`Date.now()`; the clock reading is passed in as `now`. -/
def combineCards (now : Nat) (selectedCards : List Card) (targetChar : String)
    (availableCards : List Card) (data : GameData) : List Card :=
  (availableCards.filter (fun card => !(selectedCards.any (fun sc => sc.id == card.id)))) ++
    [{ id := targetChar ++ "-combined-" ++ toString now,
       character := targetChar,
       isLeaf := (lookupG data.charToDecomposition targetChar).isNone }]

/-- Embedding of the TS `decomposeCard`: a card holding a leaf symbol leaves
the pool unchanged; otherwise the card is removed and one card per immediate
component is appended, leaf status recomputed per component.  The clock
reading of the TS id is passed in as `now`. -/
def decomposeCard (now : Nat) (card : Card) (availableCards : List Card) (data : GameData) :
    List Card :=
  match lookupG data.charToDecomposition card.character with
  | none => availableCards
  | some comps =>
    (availableCards.filter (fun c => c.id != card.id)) ++
      comps.enum.map (fun p =>
        ({ id := p.2 ++ "-decomp-" ++ toString p.1 ++ "-" ++ toString now,
           character := p.2,
           isLeaf := (lookupG data.charToDecomposition p.2).isNone } : Card))

/-- UTF-16 code units of one code point: one unit below U+10000, a surrogate
pair for a supplementary-plane code point.  A JS string is a sequence of such
units, and the string operations of the TS `checkAnswer` act on that
representation. -/
def utf16Units (c : Char) : List Nat :=
  if c.toNat < 65536 then [c.toNat]
  else [55296 + (c.toNat - 65536) / 1024, 56320 + (c.toNat - 65536) % 1024]

/-- UTF-16 code-unit sequence of a string: the faithful representation of the
JS string value (JS string equality is equality of these sequences). -/
def toUTF16 (s : String) : List Nat := (s.toList.map utf16Units).flatten

/-- The TS `targetWord.split('')`: the list of one-code-unit strings of the
target, each represented by its unit sequence (a supplementary-plane character
yields two lone surrogates, not the character itself). -/
def splitUnits (w : String) : List (List Nat) := (toUTF16 w).map (fun u => [u])

/-- The consuming loop of the TS `checkAnswer`, over JS strings represented as
their UTF-16 unit sequences: each target element is looked up in the remaining
pool strings and the first occurrence removed (`indexOf` + `splice`); a
missing element fails the whole check. -/
def consumeChars : List (List Nat) → List (List Nat) → Bool
  | [], _ => true
  | t :: ts, remaining =>
    if remaining.contains t then consumeChars ts (remaining.erase t)
    else false

/-- Embedding of the TS `checkAnswer`: the target word is split by `split('')`
into its UTF-16 code units and each must be matched, one pool card per unit
with no reuse, against the pool's symbols by exact JS string equality. -/
def checkAnswer (availableCards : List Card) (targetWord : String) : Bool :=
  consumeChars (splitUnits targetWord)
    (availableCards.map (fun c => toUTF16 c.character))

/-- Round state of the CLI command dispatcher (the fields `cmdCombine` reads
and writes). -/
structure RoundState where
  availableCards : List Card
  selectedCards : List Card
  possibleCombinations : List String
deriving DecidableEq

/-- Typed failure reasons of the round state machine. -/
inductive GameError where
  | emptySelection
deriving DecidableEq

/-- Embedding of the CLI `cmdCombine`: an empty selection is reported as the
empty-selection error and the state is left unchanged; otherwise the pool is
replaced by `combineCards` and the selection cleared. -/
def cmdCombine (now : Nat) (data : GameData) (state : RoundState) (targetChar : String) :
    RoundState × Option GameError :=
  if state.selectedCards.length == 0 then
    (state, some GameError.emptySelection)
  else
    ({ availableCards := combineCards now state.selectedCards targetChar state.availableCards data,
       selectedCards := [],
       possibleCombinations := [] }, none)

/-- The two-node cyclic graph of the cycle-safety property. -/
def cycleGraph : Graph := [("A", ["B"]), ("B", ["A"])]

/-- A graph in which one symbol decomposes into two copies of the same
sub-part, which itself decomposes further. -/
def dupGraph : Graph := [("哥", ["可", "可"]), ("可", ["丁", "口"])]

/-- Game data exercising the unguarded `isPartOfDecomposition` recursion: the
graph contains the two-node cycle and a combinable symbol `D` distinct from
the target. -/
def divergeData : GameData :=
  { charToDecomposition := [("A", ["B"]), ("B", ["A"]), ("D", ["b", "c"])],
    componentsToChars := [("bc", ["D"])] }

/-- Cards whose only pair combines into `D` under `divergeData`. -/
def divergeCards : List Card := [{ id := "1", character := "b", isLeaf := true },
  { id := "2", character := "c", isLeaf := true }]

/-- Game data for the bright example: one composite and its reverse-index entry. -/
def brightData : GameData :=
  { charToDecomposition := [("明", ["日", "月"])],
    componentsToChars := [("日月", ["明"])] }

/-- The two component cards of the bright example. -/
def brightCards : List Card := [{ id := "a", character := "日", isLeaf := true },
  { id := "b", character := "月", isLeaf := true }]

/-- Game data for the think example: a two-level decomposition whose
intermediate symbol is combinable from two leaves. -/
def thinkData : GameData :=
  { charToDecomposition := [("想", ["相", "心"]), ("相", ["木", "目"])],
    componentsToChars := [("木目", ["相"])] }

/-- The two leaf cards of the think example. -/
def thinkCards : List Card := [{ id := "1", character := "木", isLeaf := true },
  { id := "2", character := "目", isLeaf := true }]

/-! Theorems.  First the infrastructure for the guarded leaf reduction: the
fuel-free `decomposeToLeaves` agrees with the fuel-indexed recursion whenever
the fuel exceeds `pathMeasure`, which also proves the source recursion
terminates on every graph. -/

theorem contains_iff_mem {α : Type} [BEq α] [LawfulBEq α] {l : List α} {c : α} :
    l.contains c = true ↔ c ∈ l := by
  unfold List.contains
  exact List.elem_iff

theorem lookupG_mem_keys {g : Graph} {c : String} {comps : List String}
    (h : lookupG g c = some comps) : c ∈ graphKeys g := by
  unfold lookupG at h
  cases hf : g.find? (fun p => p.1 == c) with
  | none => rw [hf] at h; simp at h
  | some p =>
    have hp : p.1 = c := by simpa using List.find?_some hf
    have hm : p ∈ g := List.mem_of_find?_eq_some hf
    exact hp ▸ List.mem_map_of_mem Prod.fst hm

theorem length_filter_mono {α : Type} {l : List α} {p q : α → Bool}
    (himp : ∀ a, q a = true → p a = true) :
    (l.filter q).length ≤ (l.filter p).length := by
  induction l with
  | nil => simp
  | cons a t ih =>
    cases hq : q a <;> cases hp : p a <;> simp [List.filter_cons, hq, hp]
    · exact ih
    · exact Nat.le_succ_of_le ih
    · exact absurd (himp a hq) (by simp [hp])
    · exact ih

theorem length_filter_lt {α : Type} {l : List α} {p q : α → Bool}
    (himp : ∀ a, q a = true → p a = true)
    {x : α} (hx : x ∈ l) (hpx : p x = true) (hqx : q x = false) :
    (l.filter q).length < (l.filter p).length := by
  induction l with
  | nil => cases hx
  | cons a t ih =>
    rcases List.mem_cons.1 hx with rfl | hx'
    · simp [List.filter_cons, hqx, hpx]
      exact Nat.lt_succ_of_le (length_filter_mono himp)
    · cases hq : q a <;> cases hp : p a <;> simp [List.filter_cons, hq, hp]
      · exact ih hx'
      · exact Nat.lt_succ_of_lt (ih hx')
      · exact absurd (himp a hq) (by simp [hp])
      · exact ih hx'

theorem pathMeasure_lt {g : Graph} {c : String} {comps : List String} {path : List String}
    (h : lookupG g c = some comps) (hc : path.contains c = false) :
    pathMeasure g (path ++ [c]) < pathMeasure g path := by
  unfold pathMeasure
  apply length_filter_lt (x := c) ?_ (lookupG_mem_keys h) ?_ ?_
  · intro a ha
    cases hpa : path.contains a with
    | false => rfl
    | true =>
      exfalso
      have hmem : a ∈ path ++ [c] := List.mem_append_left _ (contains_iff_mem.1 hpa)
      rw [contains_iff_mem.2 hmem] at ha
      simp at ha
  · rw [hc]
    rfl
  · have hin : (path ++ [c]).contains c = true :=
      contains_iff_mem.2 (List.mem_append_right _ (List.mem_singleton.2 rfl))
    rw [hin]
    rfl

theorem seqLeaves_isSome {l : List (Option (List String))}
    (h : ∀ o ∈ l, o.isSome = true) : (seqLeaves l).isSome = true := by
  induction l with
  | nil => rfl
  | cons o t ih =>
    cases o with
    | none => exact absurd (h none (List.mem_cons_self _ _)) (by simp)
    | some a =>
      have := ih (fun o ho => h o (List.mem_cons_of_mem _ ho))
      cases ht : seqLeaves t with
      | none => rw [ht] at this; simp at this
      | some ls => simp [seqLeaves, ht]

theorem seqLeaves_map_some {l : List String} {f : String → Option (List String)}
    {h : String → List String} (hall : ∀ x ∈ l, f x = some (h x)) :
    seqLeaves (l.map f) = some ((l.map h).flatten) := by
  induction l with
  | nil => rfl
  | cons a t ih =>
    have ha := hall a (List.mem_cons_self a t)
    have ht := ih (fun x hx => hall x (List.mem_cons_of_mem _ hx))
    simp [List.map_cons, ha, seqLeaves, ht]

theorem seqLeaves_mono {l : List String} {f f' : String → Option (List String)}
    (hmono : ∀ x ∈ l, ∀ a, f x = some a → f' x = some a) :
    ∀ {r : List String}, seqLeaves (l.map f) = some r → seqLeaves (l.map f') = some r := by
  induction l with
  | nil => intro r h; exact h
  | cons a t ih =>
    intro r h
    rw [List.map_cons] at h ⊢
    cases hfa : f a with
    | none => rw [hfa] at h; simp [seqLeaves] at h
    | some la =>
      rw [hfa] at h
      rw [hmono a (List.mem_cons_self _ _) la hfa]
      cases hrest : seqLeaves (t.map f) with
      | none => rw [show seqLeaves (some la :: t.map f) = none by simp [seqLeaves, hrest]] at h; cases h
      | some ls =>
        have h' : seqLeaves (t.map f') = some ls :=
          ih (fun x hx b hb => hmono x (List.mem_cons_of_mem _ hx) b hb) hrest
        rw [show seqLeaves (some la :: t.map f) = some (la ++ ls) by simp [seqLeaves, hrest]] at h
        simp [seqLeaves, h']
        simpa using h

theorem decomposeToLeavesF_mono {g : Graph} :
    ∀ {f f' : Nat}, f ≤ f' → ∀ {c : String} {path r : List String},
      decomposeToLeavesF g f c path = some r → decomposeToLeavesF g f' c path = some r := by
  intro f
  induction f with
  | zero => intro f' _ c path r h; simp [decomposeToLeavesF] at h
  | succ n ih =>
    intro f' hle c path r h
    obtain ⟨m, rfl⟩ : ∃ m, f' = m + 1 := ⟨f' - 1, by omega⟩
    rw [decomposeToLeavesF] at h ⊢
    cases hcon : path.contains c with
    | true =>
      rw [hcon] at h
      exact h
    | false =>
      rw [hcon] at h
      simp only [Bool.false_eq_true, if_false] at h ⊢
      cases hlook : lookupG g c with
      | none =>
        rw [hlook] at h
        exact h
      | some comps =>
        rw [hlook] at h
        exact seqLeaves_mono (fun x _ b hb => ih (by omega) hb) h

theorem decomposeToLeavesF_isSome {g : Graph} :
    ∀ {f : Nat} {c : String} {path : List String}, pathMeasure g path < f →
      (decomposeToLeavesF g f c path).isSome = true := by
  intro f
  induction f with
  | zero => intro c path h; exact absurd h (Nat.not_lt_zero _)
  | succ n ih =>
    intro c path h
    rw [decomposeToLeavesF]
    cases hcon : path.contains c with
    | true => simp
    | false =>
      simp only [Bool.false_eq_true, if_false]
      cases hlook : lookupG g c with
      | none => simp
      | some comps =>
        simp only []
        apply seqLeaves_isSome
        intro o ho
        obtain ⟨x, _, rfl⟩ := List.mem_map.1 ho
        apply ih
        have hlt := pathMeasure_lt hlook hcon
        omega

theorem decomposeToLeavesF_complete {g : Graph} {f : Nat} {c : String} {path : List String}
    (h : pathMeasure g path < f) :
    decomposeToLeavesF g f c path = some (decomposeToLeaves g c path) := by
  have h1 : (decomposeToLeavesF g (pathMeasure g path + 1) c path).isSome = true :=
    decomposeToLeavesF_isSome (Nat.lt_succ_self _)
  obtain ⟨r, hr⟩ := Option.isSome_iff_exists.1 h1
  have hdec : decomposeToLeaves g c path = r := by
    unfold decomposeToLeaves; rw [hr]; rfl
  rw [hdec]
  exact decomposeToLeavesF_mono (by omega) hr

theorem decomposeToLeaves_eq (g : Graph) (c : String) (path : List String) :
    decomposeToLeaves g c path =
      if path.contains c then [c]
      else
        match lookupG g c with
        | none => [c]
        | some comps => (comps.map (fun comp => decomposeToLeaves g comp (path ++ [c]))).flatten := by
  unfold decomposeToLeaves
  rw [decomposeToLeavesF]
  cases hcon : path.contains c with
  | true => simp
  | false =>
    simp only [Bool.false_eq_true, if_false]
    cases hlook : lookupG g c with
    | none => rfl
    | some comps =>
      have hall : ∀ x ∈ comps,
          decomposeToLeavesF g (pathMeasure g path) x (path ++ [c]) =
            some (decomposeToLeaves g x (path ++ [c])) :=
        fun x _ => decomposeToLeavesF_complete (pathMeasure_lt hlook hcon)
      show (seqLeaves (comps.map
          (fun comp => decomposeToLeavesF g (pathMeasure g path) comp (path ++ [c])))).getD [] =
        (comps.map (fun comp => decomposeToLeaves g comp (path ++ [c]))).flatten
      rw [seqLeaves_map_some (h := fun x => decomposeToLeaves g x (path ++ [c])) hall]
      rfl

/-- C3: cycle safety of leaf reduction.  For every graph the guarded recursion
terminates (the fuel `pathMeasure g path + 1` provably suffices), a symbol
already on the expansion path is returned as the singleton `[symbol]`, and on
the two-node cycle `A -> [B], B -> [A]` reducing `A` from the empty path
terminates with the finite list `["A"]`, the repeated ancestor collapsed to a
leaf. -/
theorem decomposeToLeaves_cycle_safe (g : Graph) (c : String) (path : List String) :
    decomposeToLeavesF g (pathMeasure g path + 1) c path = some (decomposeToLeaves g c path) ∧
    (c ∈ path → decomposeToLeaves g c path = [c]) ∧
    decomposeToLeaves cycleGraph "A" [] = ["A"] ∧
    "A" ∈ decomposeToLeaves cycleGraph "A" [] := by
  refine ⟨decomposeToLeavesF_complete (Nat.lt_succ_self _), ?_, by decide, by decide⟩
  intro hmem
  rw [decomposeToLeaves_eq]
  simp only [contains_iff_mem.2 hmem, if_true]

/-- Witness for C3: the cycle-collapse branch at a concrete input. -/
theorem decomposeToLeaves_cycle_safe_witness :
    decomposeToLeaves cycleGraph "B" ["A", "B"] = ["B"] :=
  (decomposeToLeaves_cycle_safe cycleGraph "B" ["A", "B"]).2.1 (by decide)

/-- C4: duplicate preservation.  For every symbol present in the graph the
reduction is the concatenation, in component order, of the recursive
reductions of its immediate components, and on a graph where one symbol holds
two copies of the same sub-part both transitive copies appear in the result. -/
theorem decomposeToLeaves_duplicate_preserving (g : Graph) (s : String) (comps : List String)
    (h : lookupG g s = some comps) :
    decomposeToLeaves g s [] = (comps.map (fun comp => decomposeToLeaves g comp [s])).flatten ∧
    decomposeToLeaves dupGraph "哥" [] = ["丁", "口", "丁", "口"] ∧
    (decomposeToLeaves dupGraph "哥" []).count "口" = 2 ∧
    (decomposeToLeaves dupGraph "哥" []).count "丁" = 2 := by
  refine ⟨?_, by decide, by decide, by decide⟩
  rw [decomposeToLeaves_eq]
  have hc : ([] : List String).contains s = false := rfl
  rw [hc]
  simp only [Bool.false_eq_true, if_false]
  rw [h]
  rfl

/-- Witness for C4: the concatenation equation instantiated on the duplicate
graph. -/
theorem decomposeToLeaves_duplicate_preserving_witness :
    decomposeToLeaves dupGraph "哥" [] =
      (["可", "可"].map (fun comp => decomposeToLeaves dupGraph comp ["哥"])).flatten ∧
    (decomposeToLeaves dupGraph "哥" []).count "口" = 2 :=
  ⟨(decomposeToLeaves_duplicate_preserving dupGraph "哥" ["可", "可"] (by decide)).1,
   (decomposeToLeaves_duplicate_preserving dupGraph "哥" ["可", "可"] (by decide)).2.2.1⟩

/-- A loop whose first recursive call exhausts its budget reports exhaustion. -/
theorem isPartAny_cons_none {f : String → Option Bool} {c : String} {rest : List String}
    (h : f c = none) : isPartAny f (c :: rest) = none := by
  simp [isPartAny, h]

/-- On the two-node cycle of `divergeData`, the path-membership recursion for a
symbol outside the cycle exhausts every finite depth budget. -/
theorem isPart_cycle_aux : ∀ fuel : Nat,
    isPartOfDecompositionF divergeData.charToDecomposition fuel "D" "A" = none ∧
    isPartOfDecompositionF divergeData.charToDecomposition fuel "D" "B" = none := by
  intro fuel
  induction fuel with
  | zero => exact ⟨rfl, rfl⟩
  | succ n ih =>
    constructor
    · show isPartAny
        (fun comp => isPartOfDecompositionF divergeData.charToDecomposition n "D" comp)
        ["B"] = none
      exact isPartAny_cons_none ih.2
    · show isPartAny
        (fun comp => isPartOfDecompositionF divergeData.charToDecomposition n "D" comp)
        ["A"] = none
      exact isPartAny_cons_none ih.1

/-- A results loop whose head candidate passes the containment check, differs
from the target, and whose path-membership test exhausts its budget, itself
reports exhaustion. -/
theorem resultsLoopF_none_head {fuel : Nat} {data : GameData} {t : String}
    {chars ids : List String} {result : String} {rest : List String}
    (henough : hasEnoughComponents data chars (getComponentsForWord data result) = true)
    (hne : (result == t) = false)
    (hdiv : isPartOfDecompositionF data.charToDecomposition fuel result t = none) :
    resultsLoopF fuel data t chars ids (result :: rest) = none := by
  simp [resultsLoopF, henough, hne, hdiv]

/-- C2: refutation of universal termination on the code as written.  The TS
`isPartOfDecomposition` carries no cycle guard, so on a graph containing the
two-node cycle `A -> [B], B -> [A]` the recursion for a symbol outside the
cycle exhausts every finite depth budget, and a whole `generateHints` call
reaching it does too: no finite fuel makes the embedded computation return. -/
theorem isPartOfDecomposition_diverges_on_cycle :
    (∀ fuel : Nat,
      isPartOfDecompositionF divergeData.charToDecomposition fuel "D" "A" = none) ∧
    (∀ fuel : Nat, generateHintsF fuel divergeData "A" divergeCards = none) := by
  constructor
  · exact fun fuel => (isPart_cycle_aux fuel).1
  · intro fuel
    have h1 : stepsForGroupF fuel divergeData "A"
        [{ id := "1", character := "b", isLeaf := true },
         { id := "2", character := "c", isLeaf := true }] = none := by
      show resultsLoopF fuel divergeData "A" ["b", "c"] ["1", "2"] ["D"] = none
      exact resultsLoopF_none_head (by decide) (by decide) ((isPart_cycle_aux fuel).1)
    have h2 : findValidNextStepsF fuel divergeData "A" divergeCards = none := by
      show collectGroupsF fuel divergeData "A"
        [[{ id := "1", character := "b", isLeaf := true },
          { id := "2", character := "c", isLeaf := true }]] = none
      rw [collectGroupsF, h1]
    show (match findValidNextStepsF fuel divergeData "A" divergeCards with
          | none => (none : Option (List Hint))
          | some validSteps => some (selectHints (stepTargetFirst "A" validSteps) [] 0)) = none
    rw [h2]

/-- The containment check holds iff every required component's count is met by
the selection's flattened leaf multiset (components absent from the
requirements need count zero, so the bound is vacuous for them). -/
theorem hasEnough_iff {data : GameData} {sel req : List String} :
    hasEnoughComponents data sel req = true ↔
      ∀ x : String, req.count x ≤ (selectionLeaves data.charToDecomposition sel).count x := by
  unfold hasEnoughComponents
  rw [List.all_eq_true]
  constructor
  · intro h x
    by_cases hx : x ∈ req
    · simpa using h x (List.mem_dedup.2 hx)
    · rw [List.count_eq_zero.2 hx]
      exact Nat.zero_le _
  · intro h x _
    simpa using h x

/-- Membership after a set insertion comes from the set or is the new element. -/
theorem addUnique_mem {acc : List String} {cand c : String}
    (h : c ∈ addUnique acc cand) : c ∈ acc ∨ c = cand := by
  unfold addUnique at h
  by_cases hc : acc.contains cand = true
  · rw [if_pos hc] at h
    exact Or.inl h
  · rw [if_neg hc] at h
    rcases List.mem_append.1 h with h1 | h1
    · exact Or.inl h1
    · exact Or.inr (List.mem_singleton.1 h1)

/-- Every symbol accumulated by the candidate loop was already accumulated or
is a reverse-index match passing the containment check for these symbols. -/
theorem candidatesLoop_mem {data : GameData} {chars : List String} :
    ∀ {cands acc : List String} {c : String}, c ∈ candidatesLoop data chars cands acc →
      c ∈ acc ∨ (c ∈ cands ∧ hasEnoughComponents data chars (getComponentsForWord data c) = true) := by
  intro cands
  induction cands with
  | nil => intro acc c h; exact Or.inl h
  | cons cand rest ih =>
    intro acc c h
    rw [candidatesLoop] at h
    by_cases he : hasEnoughComponents data chars (getComponentsForWord data cand) = true
    · rw [if_pos he] at h
      rcases ih h with h1 | h1
      · rcases addUnique_mem h1 with h2 | h2
        · exact Or.inl h2
        · subst h2
          exact Or.inr ⟨List.mem_cons_self _ _, he⟩
      · exact Or.inr ⟨List.mem_cons_of_mem _ h1.1, h1.2⟩
    · rw [if_neg he] at h
      rcases ih h with h1 | h1
      · exact Or.inl h1
      · exact Or.inr ⟨List.mem_cons_of_mem _ h1.1, h1.2⟩

/-- Every symbol accumulated by `checkSubset` was already accumulated or
passes the containment check for the non-empty subset examined. -/
theorem checkSubset_mem {data : GameData} {acc chars : List String} {c : String}
    (h : c ∈ checkSubset data acc chars) :
    c ∈ acc ∨ (chars ≠ [] ∧ hasEnoughComponents data chars (getComponentsForWord data c) = true) := by
  unfold checkSubset at h
  by_cases hne : chars.isEmpty = true
  · rw [if_pos hne] at h
    exact Or.inl h
  · rw [if_neg hne] at h
    cases hl : lookupG data.componentsToChars (canonicalKey chars) with
    | none =>
      rw [hl] at h
      exact Or.inl h
    | some found =>
      rw [hl] at h
      rcases candidatesLoop_mem h with h1 | h1
      · exact Or.inl h1
      · refine Or.inr ⟨?_, h1.2⟩
        intro hnil
        subst hnil
        simp at hne

/-- Membership in a fold whose step only adds elements satisfying the step
property comes from the start or from one step. -/
theorem foldl_mem_inv {β : Type} {f : List String → β → List String} {P : β → String → Prop}
    (hf : ∀ acc k c, c ∈ f acc k → c ∈ acc ∨ P k c) :
    ∀ {l : List β} {acc : List String} {c : String},
      c ∈ l.foldl f acc → c ∈ acc ∨ ∃ k ∈ l, P k c := by
  intro l
  induction l with
  | nil => intro acc c h; exact Or.inl h
  | cons b t ih =>
    intro acc c h
    rw [List.foldl_cons] at h
    rcases ih h with h1 | ⟨k, hk, hpk⟩
    · rcases hf acc b c h1 with h2 | h2
      · exact Or.inl h2
      · exact Or.inr ⟨b, List.mem_cons_self _ _, h2⟩
    · exact Or.inr ⟨k, List.mem_cons_of_mem _ hk, hpk⟩

/-- A bitmask subset of a list is one of its sublists. -/
theorem subsetOfMask_sublist : ∀ (chars : List String) (mask : Nat),
    (subsetOfMask chars mask).Sublist chars := by
  intro chars
  induction chars with
  | nil => intro mask; exact List.Sublist.refl _
  | cons a t ih =>
    intro mask
    rw [subsetOfMask]
    by_cases hm : (mask % 2 == 1) = true
    · rw [if_pos hm]
      exact (ih _).cons₂ a
    · rw [if_neg hm]
      exact (ih _).cons a

/-- C1: combination soundness.  Every symbol returned by
`findPossibleCombinations` is justified by multiset containment: some
non-empty subset of the selected cards' symbols passes the containment check
against the candidate's required leaf multiset, i.e. the subset's flattened
leaf multiset meets every required count — so a candidate requiring two
occurrences of one leaf is never returned when every subset's reduction
supplies fewer. -/
theorem findPossibleCombinations_sound (data : GameData) (selectedCards : List Card)
    (c : String) (h : c ∈ findPossibleCombinations selectedCards data) :
    ∃ S : List String, S ≠ [] ∧ S.Sublist (selectedCards.map (fun card => card.character)) ∧
      hasEnoughComponents data S (getComponentsForWord data c) = true ∧
      ∀ x : String, (getComponentsForWord data c).count x ≤
        (selectionLeaves data.charToDecomposition S).count x := by
  unfold findPossibleCombinations at h
  by_cases hne : selectedCards.isEmpty = true
  · rw [if_pos hne] at h
    cases h
  · rw [if_neg hne] at h
    rcases foldl_mem_inv
        (P := fun k cc => subsetOfMask (selectedCards.map (fun card => card.character)) (k + 1) ≠ [] ∧
          hasEnoughComponents data
            (subsetOfMask (selectedCards.map (fun card => card.character)) (k + 1))
            (getComponentsForWord data cc) = true)
        (fun acc k cc hcc => checkSubset_mem hcc) h with h1 | ⟨k, _, hk⟩
    · cases h1
    · exact ⟨subsetOfMask (selectedCards.map (fun card => card.character)) (k + 1),
        hk.1, subsetOfMask_sublist _ _, hk.2, hasEnough_iff.1 hk.2⟩

/-- Witness for C1 on the bright example. -/
theorem findPossibleCombinations_sound_witness :
    "明" ∈ findPossibleCombinations brightCards brightData ∧
    ∃ S : List String, S ≠ [] ∧ S.Sublist (brightCards.map (fun card => card.character)) ∧
      hasEnoughComponents brightData S (getComponentsForWord brightData "明") = true ∧
      ∀ x : String, (getComponentsForWord brightData "明").count x ≤
        (selectionLeaves brightData.charToDecomposition S).count x :=
  ⟨by decide, findPossibleCombinations_sound brightData brightCards "明" (by decide)⟩

/-- Removing one occurrence of a present element permutes to consing it back
(the `List.erase` of the code-unit lists). -/
theorem perm_cons_erase_units {t : List Nat} : ∀ {r : List (List Nat)},
    t ∈ r → r.Perm (t :: r.erase t) := by
  intro r
  induction r with
  | nil => intro h; cases h
  | cons a rest ih =>
    intro h
    rw [List.erase_cons]
    by_cases hat : (a == t) = true
    · rw [if_pos hat]
      have : a = t := by simpa using hat
      rw [this]
    · rw [if_neg hat]
      have hmem : t ∈ rest := by
        rcases List.mem_cons.1 h with h' | h'
        · exact absurd (by simp [h']) hat
        · exact h'
      exact ((ih hmem).cons a).trans (List.Perm.swap t a _)

/-- The consuming loop succeeds iff the target sequence is a subpermutation of
the remaining pool strings: every target element matched one-to-one, by exact
equality, against a distinct remaining element. -/
theorem consumeChars_iff_subperm : ∀ (l r : List (List Nat)),
    consumeChars l r = true ↔ l.Subperm r := by
  intro l
  induction l with
  | nil => intro r; simp [consumeChars, List.nil_subperm]
  | cons t ts ih =>
    intro r
    rw [consumeChars]
    by_cases hc : r.contains t = true
    · rw [if_pos hc]
      have htr : t ∈ r := contains_iff_mem.1 hc
      have hre : r.Perm (t :: r.erase t) := perm_cons_erase_units htr
      rw [ih]
      constructor
      · intro h
        obtain ⟨m, hm1, hm2⟩ := h
        exact List.Subperm.trans ⟨t :: m, hm1.cons t, hm2.cons₂ t⟩ hre.symm.subperm
      · intro h
        exact (List.subperm_cons t).1 (h.trans hre.subperm)
    · rw [if_neg hc]
      constructor
      · intro h
        cases h
      · intro h
        exact absurd (contains_iff_mem.2 (h.subset (List.mem_cons_self _ _))) hc

/-- What the code actually guarantees: `checkAnswer` succeeds iff the target's
UTF-16 code-unit sequence, as one-unit strings, is a subpermutation of the
pool's symbol strings — the matching of the spec only when every target
character is a single code unit. -/
theorem checkAnswer_iff_unit_subperm (availableCards : List Card) (targetWord : String) :
    checkAnswer availableCards targetWord = true ↔
      (splitUnits targetWord).Subperm (availableCards.map (fun c => toUTF16 c.character)) := by
  rw [checkAnswer, consumeChars_iff_subperm]

/-- C7: refutation of the submit-matching iff on the code as written.  The TS
`checkAnswer` splits the target with `split('')`, which operates on UTF-16
code units: a supplementary-plane target character such as the repository's
own symbol at U+2696F is split into two lone surrogates that can never equal a
full-character pool card, so the pool holding exactly that one character
Symbol is rejected even though the one-to-one Symbol matching the claim
describes exists; a BMP target such as U+5927 behaves as the claim says.  The
spec's reading (the target as a sequence of character Symbols) is the intent —
the same source file iterates code points elsewhere with an explicit
multi-byte-Unicode comment — and the `split('')` is the slip. -/
theorem checkAnswer_utf16_divergence :
    checkAnswer [{ id := "u", character := "𦥯", isLeaf := true }] "𦥯" = false ∧
    ("𦥯".toList.map (fun ch => ch.toString)).Subperm
      (([{ id := "u", character := "𦥯", isLeaf := true }] : List Card).map
        (fun c => c.character)) ∧
    checkAnswer [{ id := "v", character := "大", isLeaf := true }] "大" = true := by
  refine ⟨by decide, ?_, by decide⟩
  have h1 : "𦥯".toList.map (fun ch => ch.toString) = ["𦥯"] := by decide
  have h2 : (([{ id := "u", character := "𦥯", isLeaf := true }] : List Card).map
      (fun c => c.character)) = ["𦥯"] := by decide
  rw [h1, h2]

/-- C9: empty-selection failure.  The combine transition with no selected card
reports the empty-selection error and returns the state unchanged; with a
non-empty selection it succeeds, replacing the pool by `combineCards` and
clearing the selection. -/
theorem cmdCombine_empty_selection (now : Nat) (data : GameData) (state : RoundState)
    (targetChar : String) :
    (state.selectedCards = [] →
      cmdCombine now data state targetChar = (state, some GameError.emptySelection)) ∧
    (state.selectedCards ≠ [] →
      (cmdCombine now data state targetChar).2 = none ∧
      (cmdCombine now data state targetChar).1.availableCards =
        combineCards now state.selectedCards targetChar state.availableCards data ∧
      (cmdCombine now data state targetChar).1.selectedCards = []) := by
  constructor
  · intro h
    unfold cmdCombine
    rw [h]
    rfl
  · intro h
    unfold cmdCombine
    have hlen : (state.selectedCards.length == 0) = false := by
      cases hsc : state.selectedCards with
      | nil => exact absurd hsc h
      | cons a t => rfl
    rw [hlen]
    exact ⟨rfl, rfl, rfl⟩

/-- Witness for C9: the error case and a success case at concrete states. -/
theorem cmdCombine_empty_selection_witness :
    cmdCombine 0 brightData
        { availableCards := brightCards, selectedCards := [], possibleCombinations := [] } "明" =
      ({ availableCards := brightCards, selectedCards := [], possibleCombinations := [] },
        some GameError.emptySelection) ∧
    (cmdCombine 1 brightData
        { availableCards := brightCards, selectedCards := brightCards,
          possibleCombinations := ["明"] } "明").2 = none :=
  ⟨(cmdCombine_empty_selection 0 brightData
      { availableCards := brightCards, selectedCards := [], possibleCombinations := [] } "明").1 rfl,
   ((cmdCombine_empty_selection 1 brightData
      { availableCards := brightCards, selectedCards := brightCards,
        possibleCombinations := ["明"] } "明").2 (by decide)).1⟩

/-- A card pool's membership test by selected ids, as the any-of-equal-id loop
of `combineCards` computes it. -/
theorem any_id_eq_contains (selectedCards : List Card) (x : String) :
    (selectedCards.any (fun sc => sc.id == x)) =
      decide (x ∈ selectedCards.map (fun sc => sc.id)) := by
  cases hany : selectedCards.any (fun sc => sc.id == x) with
  | true =>
    obtain ⟨sc, hsc, hbe⟩ := List.any_eq_true.1 hany
    have hid : sc.id = x := by simpa using hbe
    have hx : x ∈ selectedCards.map (fun sc => sc.id) :=
      hid ▸ List.mem_map_of_mem _ hsc
    simp [hx]
  | false =>
    have hall : ∀ sc ∈ selectedCards, ¬ sc.id = x := by
      intro sc hsc heq
      have : selectedCards.any (fun sc => sc.id == x) = true :=
        List.any_eq_true.2 ⟨sc, hsc, by simp [heq]⟩
      rw [hany] at this
      cases this
    have hx : x ∉ selectedCards.map (fun sc => sc.id) := by
      intro hmemx
      obtain ⟨sc, hsc, heq⟩ := List.mem_map.1 hmemx
      exact hall sc hsc heq
    simp [hx]

/-- C10: combine is an unchecked postcondition.  For every pool, selection and
target symbol — also one not producible from the selection — `combineCards`
totally succeeds, removing exactly the cards whose ids appear in the selection
and appending exactly one new card holding the target, whose leaf flag is true
iff the target has no decomposition entry; unselected cards are preserved in
order, unchanged. -/
theorem combineCards_unchecked_postcondition (now : Nat) (selectedCards : List Card)
    (targetChar : String) (availableCards : List Card) (data : GameData) :
    ∃ newCard : Card,
      combineCards now selectedCards targetChar availableCards data =
        availableCards.filter
          (fun c => decide (c.id ∉ selectedCards.map (fun sc => sc.id))) ++ [newCard] ∧
      newCard.character = targetChar ∧
      (newCard.isLeaf = true ↔ lookupG data.charToDecomposition targetChar = none) := by
  refine ⟨{ id := targetChar ++ "-combined-" ++ toString now, character := targetChar,
            isLeaf := (lookupG data.charToDecomposition targetChar).isNone }, ?_, rfl, ?_⟩
  · unfold combineCards
    congr 1
    apply List.filter_congr
    intro c _
    rw [any_id_eq_contains, decide_not]
  · exact Option.isNone_iff_eq_none

/-- Combining two freshly created cards appended to a pool whose ids avoid
theirs removes exactly those two cards. -/
theorem combineCards_append_fresh (now : Nat) (c1 c2 : Card) (t : String) (A : List Card)
    (data : GameData)
    (h1 : ∀ c ∈ A, c.id ≠ c1.id) (h2 : ∀ c ∈ A, c.id ≠ c2.id) :
    combineCards now [c1, c2] t (A ++ [c1, c2]) data =
      A ++ [{ id := t ++ "-combined-" ++ toString now, character := t,
              isLeaf := (lookupG data.charToDecomposition t).isNone }] := by
  unfold combineCards
  congr 1
  rw [List.filter_append]
  have hnew : List.filter (fun c => !([c1, c2].any (fun sc => sc.id == c.id))) [c1, c2] = [] := by
    simp [List.filter_cons, List.any_cons, beq_self_eq_true]
  rw [hnew, List.append_nil]
  apply List.filter_eq_self.2
  intro c hc
  have hne1 : (c1.id == c.id) = false := beq_eq_false_iff_ne.2 (fun he => h1 c hc he.symm)
  have hne2 : (c2.id == c.id) = false := beq_eq_false_iff_ne.2 (fun he => h2 c hc he.symm)
  simp [List.any_cons, hne1, hne2]

/-- C8: decompose/combine round-trip.  Decomposing a card holding a two-part
composite and then combining exactly the two resulting component cards back
into the same symbol restores the pool up to card identifiers: the unselected
cards are unchanged and the pool again holds one non-leaf card with the
composite symbol. -/
theorem decompose_combine_roundtrip (data : GameData) (pool : List Card) (card : Card)
    (p1 p2 : String) (now1 now2 : Nat)
    (hdec : lookupG data.charToDecomposition card.character = some [p1, p2])
    (hmem : card ∈ pool)
    (hleaf : card.isLeaf = false)
    (hnodup : (pool.map (fun c => c.id)).Nodup)
    (hfresh1 : ∀ c ∈ pool, c.id ≠ p1 ++ "-decomp-" ++ toString 0 ++ "-" ++ toString now1)
    (hfresh2 : ∀ c ∈ pool, c.id ≠ p2 ++ "-decomp-" ++ toString 1 ++ "-" ++ toString now1) :
    ∃ c1 c2 : Card,
      decomposeCard now1 card pool data =
        pool.filter (fun c => c.id != card.id) ++ [c1, c2] ∧
      c1.character = p1 ∧ c2.character = p2 ∧
      combineCards now2 [c1, c2] card.character (decomposeCard now1 card pool data) data =
        pool.filter (fun c => c.id != card.id) ++
          [{ id := card.character ++ "-combined-" ++ toString now2,
             character := card.character, isLeaf := false }] ∧
      ((combineCards now2 [c1, c2] card.character (decomposeCard now1 card pool data) data).map
          (fun c => (c.character, c.isLeaf))).Perm
        (pool.map (fun c => (c.character, c.isLeaf))) := by
  have hd : decomposeCard now1 card pool data =
      pool.filter (fun c => c.id != card.id) ++
        [⟨p1 ++ "-decomp-" ++ toString 0 ++ "-" ++ toString now1, p1,
          (lookupG data.charToDecomposition p1).isNone⟩,
         ⟨p2 ++ "-decomp-" ++ toString 1 ++ "-" ++ toString now1, p2,
          (lookupG data.charToDecomposition p2).isNone⟩] := by
    unfold decomposeCard
    rw [hdec]
    rfl
  have hcomb : combineCards now2
      [⟨p1 ++ "-decomp-" ++ toString 0 ++ "-" ++ toString now1, p1,
        (lookupG data.charToDecomposition p1).isNone⟩,
       ⟨p2 ++ "-decomp-" ++ toString 1 ++ "-" ++ toString now1, p2,
        (lookupG data.charToDecomposition p2).isNone⟩]
      card.character (decomposeCard now1 card pool data) data =
      pool.filter (fun c => c.id != card.id) ++
        [{ id := card.character ++ "-combined-" ++ toString now2,
           character := card.character, isLeaf := false }] := by
    rw [hd]
    have hfr1 : ∀ c ∈ pool.filter (fun c => c.id != card.id),
        c.id ≠ p1 ++ "-decomp-" ++ toString 0 ++ "-" ++ toString now1 :=
      fun c hc => hfresh1 c (List.mem_filter.1 hc).1
    have hfr2 : ∀ c ∈ pool.filter (fun c => c.id != card.id),
        c.id ≠ p2 ++ "-decomp-" ++ toString 1 ++ "-" ++ toString now1 :=
      fun c hc => hfresh2 c (List.mem_filter.1 hc).1
    rw [combineCards_append_fresh now2 _ _ card.character _ data hfr1 hfr2, hdec]
    rfl
  refine ⟨⟨p1 ++ "-decomp-" ++ toString 0 ++ "-" ++ toString now1, p1,
            (lookupG data.charToDecomposition p1).isNone⟩,
          ⟨p2 ++ "-decomp-" ++ toString 1 ++ "-" ++ toString now1, p2,
            (lookupG data.charToDecomposition p2).isNone⟩, hd, rfl, rfl, hcomb, ?_⟩
  rw [hcomb]
  obtain ⟨l1, l2, hp⟩ := List.append_of_mem hmem
  subst hp
  have h1 : ∀ c ∈ l1, c.id ≠ card.id := by
    intro c hc heq
    rw [List.map_append] at hnodup
    have hdisj := (List.nodup_append.1 hnodup).2.2
    have hmm1 : card.id ∈ List.map (fun c => c.id) l1 := by
      rw [← heq]
      exact List.mem_map_of_mem (fun c => c.id) hc
    exact hdisj hmm1 (by simp)
  have h2 : ∀ c ∈ l2, c.id ≠ card.id := by
    intro c hc heq
    rw [List.map_append, List.map_cons] at hnodup
    have hn := (List.nodup_cons.1 (List.nodup_append.1 hnodup).2.1).1
    have hmm2 : card.id ∈ List.map (fun c => c.id) l2 := by
      rw [← heq]
      exact List.mem_map_of_mem (fun c => c.id) hc
    exact hn hmm2
  have hf : (l1 ++ card :: l2).filter (fun c => c.id != card.id) = l1 ++ l2 := by
    rw [List.filter_append, List.filter_cons]
    have hcard : (card.id != card.id) = false := by simp
    rw [hcard]
    simp only [Bool.false_eq_true, if_false]
    congr 1
    · exact List.filter_eq_self.2 (fun c hc => bne_iff_ne.2 (h1 c hc))
    · exact List.filter_eq_self.2 (fun c hc => bne_iff_ne.2 (h2 c hc))
  rw [hf]
  refine List.Perm.trans
    (List.Perm.map _ (List.perm_append_singleton _ _)) ?_
  refine List.Perm.trans ?_ (List.Perm.map _ List.perm_middle.symm)
  rw [List.map_cons, List.map_cons]
  rw [hleaf]

/-- The hint-selection loop keeps at most `3 - count` further hints. -/
theorem selectHints_length : ∀ (steps : List Step) (used : List String) (count : Nat),
    (selectHints steps used count).length ≤ 3 - count := by
  intro steps
  induction steps with
  | nil => intro used count; simp [selectHints]
  | cons step rest ih =>
    intro used count
    rw [selectHints]
    by_cases hcond : (!(used.contains (String.intercalate "," (sortStrings step.cardIds))) &&
        decide (count < 3)) = true
    · rw [if_pos hcond]
      have hcond' := hcond
      rw [Bool.and_eq_true] at hcond'
      have hlt : count < 3 := of_decide_eq_true hcond'.2
      have := ih (String.intercalate "," (sortStrings step.cardIds) :: used) (count + 1)
      simp only [List.length_cons]
      omega
    · rw [if_neg hcond]
      exact ih used count

/-- C5: hint bound and answer short-circuit.  Whenever `generateHints` returns,
it returns at most three hints; and if some available card holds the target
symbol, the result is — for every fuel, hence with no search performed — the
single answer hint referencing the first such card. -/
theorem generateHints_bound_and_answer (fuel : Nat) (data : GameData) (t : String)
    (cards : List Card) :
    (∀ hints : List Hint, generateHintsF fuel data t cards = some hints → hints.length ≤ 3) ∧
    (∀ card ∈ cards, card.character = t →
      ∃ c0 : Card, cards.find? (fun c => c.character == t) = some c0 ∧ c0.character = t ∧
        ∀ fuel2 : Nat, generateHintsF fuel2 data t cards =
          some [{ cardIds := [c0.id], used := false, isAnswer := some true }]) := by
  constructor
  · intro hints h
    unfold generateHintsF at h
    cases hf : cards.find? (fun c => c.character == t) with
    | some c0 =>
      rw [hf] at h
      have he := Option.some.inj h
      rw [← he]
      simp
    | none =>
      rw [hf] at h
      cases hsteps : findValidNextStepsF fuel data t cards with
      | none =>
        rw [hsteps] at h
        exact Option.noConfusion h
      | some validSteps =>
        rw [hsteps] at h
        have he := Option.some.inj h
        rw [← he]
        have := selectHints_length (stepTargetFirst t validSteps) [] 0
        omega
  · intro card hcard hchar
    have hex : ∃ c ∈ cards, (fun c => c.character == t) c = true :=
      ⟨card, hcard, by simp [hchar]⟩
    have hsome := List.find?_isSome.2 hex
    obtain ⟨c0, hc0⟩ := Option.isSome_iff_exists.1 hsome
    refine ⟨c0, hc0, by simpa using List.find?_some hc0, ?_⟩
    intro fuel2
    unfold generateHintsF
    rw [hc0]

/-- Witness for C5: the answer short-circuit on a pool holding the target, and
the bound on the think example. -/
theorem generateHints_bound_and_answer_witness :
    (∃ c0 : Card,
      ([{ id := "z", character := "明", isLeaf := false }] : List Card).find?
          (fun c => c.character == "明") = some c0 ∧ c0.character = "明" ∧
      ∀ fuel2 : Nat, generateHintsF fuel2 brightData "明"
          [{ id := "z", character := "明", isLeaf := false }] =
        some [{ cardIds := [c0.id], used := false, isAnswer := some true }]) ∧
    (∀ hints : List Hint, generateHintsF 5 thinkData "想" thinkCards = some hints →
      hints.length ≤ 3) :=
  ⟨(generateHints_bound_and_answer 0 brightData "明"
      [{ id := "z", character := "明", isLeaf := false }]).2
      { id := "z", character := "明", isLeaf := false } (by decide) rfl,
   (generateHints_bound_and_answer 5 thinkData "想" thinkCards).1⟩

/-- Inserting into a sorted list permutes consing. -/
theorem insertSorted_perm (s : String) : ∀ (l : List String), (insertSorted s l).Perm (s :: l) := by
  intro l
  induction l with
  | nil => exact List.Perm.refl _
  | cons t rest ih =>
    rw [insertSorted]
    by_cases hle : strLe s t = true
    · rw [if_pos hle]
    · rw [if_neg hle]
      exact (ih.cons t).trans (List.Perm.swap s t rest)

/-- Sorting permutes the list. -/
theorem sortStrings_perm : ∀ (l : List String), (sortStrings l).Perm l := by
  intro l
  induction l with
  | nil => exact List.Perm.refl _
  | cons a rest ih =>
    exact (insertSorted_perm a (sortStrings rest)).trans (ih.cons a)

/-- Every selected hint is a ranked step's sorted card-id list, with the used
flag cleared and no answer flag. -/
theorem selectHints_mem : ∀ {steps : List Step} {used : List String} {count : Nat} {hint : Hint},
    hint ∈ selectHints steps used count →
    ∃ step ∈ steps, hint = { cardIds := sortStrings step.cardIds, used := false, isAnswer := none } := by
  intro steps
  induction steps with
  | nil => intro used count hint h; cases h
  | cons step rest ih =>
    intro used count hint h
    rw [selectHints] at h
    by_cases hcond : (!(used.contains (String.intercalate "," (sortStrings step.cardIds))) &&
        decide (count < 3)) = true
    · rw [if_pos hcond] at h
      rcases List.mem_cons.1 h with rfl | h'
      · exact ⟨step, List.mem_cons_self _ _, rfl⟩
      · obtain ⟨st, hst, he⟩ := ih h'
        exact ⟨st, List.mem_cons_of_mem _ hst, he⟩
    · rw [if_neg hcond] at h
      obtain ⟨st, hst, he⟩ := ih h
      exact ⟨st, List.mem_cons_of_mem _ hst, he⟩

/-- Ranking the steps does not add steps. -/
theorem stepTargetFirst_mem {t : String} {steps : List Step} {s : Step}
    (h : s ∈ stepTargetFirst t steps) : s ∈ steps := by
  rcases List.mem_append.1 h with h' | h' <;> exact (List.mem_filter.1 h').1

/-- Every step produced by the results loop carries this group's card ids and
comes from a reverse-index candidate that passes the containment check and is
the target or a path member at this depth budget. -/
theorem resultsLoopF_mem {fuel : Nat} {data : GameData} {t : String} {chars ids : List String} :
    ∀ {results : List String} {steps : List Step},
      resultsLoopF fuel data t chars ids results = some steps →
      ∀ s ∈ steps, s.cardIds = ids ∧
        ∃ cand ∈ results, s.result = cand ∧
          hasEnoughComponents data chars (getComponentsForWord data cand) = true ∧
          (cand = t ∨ isPartOfDecompositionF data.charToDecomposition fuel cand t = some true) := by
  intro results
  induction results with
  | nil =>
    intro steps h s hs
    have he := Option.some.inj h
    rw [← he] at hs
    cases hs
  | cons result rest ih =>
    intro steps h s hs
    rw [resultsLoopF] at h
    by_cases henough : hasEnoughComponents data chars (getComponentsForWord data result) = true
    · rw [if_pos henough] at h
      cases hrt : (result == t) with
      | true =>
        rw [hrt] at h
        simp only [Bool.true_or, if_true, if_pos] at h
        cases hrec : resultsLoopF fuel data t chars ids rest with
        | none =>
          rw [hrec] at h
          exact Option.noConfusion h
        | some more =>
          rw [hrec] at h
          have he := Option.some.inj h
          rw [← he] at hs
          rcases List.mem_cons.1 hs with rfl | hs'
          · exact ⟨rfl, result, List.mem_cons_self _ _, rfl, henough,
              Or.inl (by simpa using hrt)⟩
          · obtain ⟨hids, cand, hcand, hrest⟩ := ih hrec s hs'
            exact ⟨hids, cand, List.mem_cons_of_mem _ hcand, hrest⟩
      | false =>
        rw [hrt] at h
        simp only [Bool.false_eq_true, if_false] at h
        cases hip : isPartOfDecompositionF data.charToDecomposition fuel result t with
        | none =>
          rw [hip] at h
          exact Option.noConfusion h
        | some b =>
          rw [hip] at h
          cases b with
          | true =>
            simp only [Bool.false_or, if_true, if_pos] at h
            cases hrec : resultsLoopF fuel data t chars ids rest with
            | none =>
              rw [hrec] at h
              exact Option.noConfusion h
            | some more =>
              rw [hrec] at h
              have he := Option.some.inj h
              rw [← he] at hs
              rcases List.mem_cons.1 hs with rfl | hs'
              · exact ⟨rfl, result, List.mem_cons_self _ _, rfl, henough, Or.inr hip⟩
              · obtain ⟨hids, cand, hcand, hrest⟩ := ih hrec s hs'
                exact ⟨hids, cand, List.mem_cons_of_mem _ hcand, hrest⟩
          | false =>
            simp only [Bool.false_or, Bool.false_eq_true, if_false] at h
            obtain ⟨hids, cand, hcand, hrest⟩ := ih h s hs
            exact ⟨hids, cand, List.mem_cons_of_mem _ hcand, hrest⟩
    · rw [if_neg henough] at h
      obtain ⟨hids, cand, hcand, hrest⟩ := ih h s hs
      exact ⟨hids, cand, List.mem_cons_of_mem _ hcand, hrest⟩

/-- Every collected step comes from one of the examined card groups. -/
theorem collectGroupsF_mem {fuel : Nat} {data : GameData} {t : String} :
    ∀ {grps : List (List Card)} {steps : List Step},
      collectGroupsF fuel data t grps = some steps →
      ∀ s ∈ steps, ∃ grp ∈ grps, ∃ sub : List Step,
        stepsForGroupF fuel data t grp = some sub ∧ s ∈ sub := by
  intro grps
  induction grps with
  | nil =>
    intro steps h s hs
    have he := Option.some.inj h
    rw [← he] at hs
    cases hs
  | cons grp rest ih =>
    intro steps h s hs
    rw [collectGroupsF] at h
    cases hg : stepsForGroupF fuel data t grp with
    | none =>
      rw [hg] at h
      exact Option.noConfusion h
    | some sub =>
      rw [hg] at h
      cases hrec : collectGroupsF fuel data t rest with
      | none =>
        rw [hrec] at h
        exact Option.noConfusion h
      | some more =>
        rw [hrec] at h
        have he := Option.some.inj h
        rw [← he] at hs
        rcases List.mem_append.1 hs with hs' | hs'
        · exact ⟨grp, List.mem_cons_self _ _, sub, hg, hs'⟩
        · obtain ⟨g, hgmem, sub', hsub', hmem'⟩ := ih hrec s hs'
          exact ⟨g, List.mem_cons_of_mem _ hgmem, sub', hsub', hmem'⟩

/-- Every pair enumerated by the double loop is a two-element sublist. -/
theorem pairsOf_sublist {α : Type} : ∀ {l : List α} {p : α × α},
    p ∈ pairsOf l → [p.1, p.2].Sublist l := by
  intro l
  induction l with
  | nil => intro p h; cases h
  | cons x rest ih =>
    intro p h
    rw [pairsOf] at h
    rcases List.mem_append.1 h with h' | h'
    · obtain ⟨y, hy, rfl⟩ := List.mem_map.1 h'
      exact (List.singleton_sublist.2 hy).cons₂ x
    · exact (ih h').cons x

/-- Every triple enumerated by the triple loop is a three-element sublist. -/
theorem triplesOf_sublist {α : Type} : ∀ {l : List α} {p : α × α × α},
    p ∈ triplesOf l → [p.1, p.2.1, p.2.2].Sublist l := by
  intro l
  induction l with
  | nil => intro p h; cases h
  | cons x rest ih =>
    intro p h
    rw [triplesOf] at h
    rcases List.mem_append.1 h with h' | h'
    · obtain ⟨q, hq, rfl⟩ := List.mem_map.1 h'
      exact (pairsOf_sublist hq).cons₂ x
    · exact (ih h').cons x

/-- Every examined card group is a pair or a triple of available cards. -/
theorem hintGroups_mem {cards : List Card} {grp : List Card} (h : grp ∈ hintGroups cards) :
    grp.Sublist cards ∧ (grp.length = 2 ∨ grp.length = 3) := by
  unfold hintGroups at h
  rcases List.mem_append.1 h with h' | h'
  · obtain ⟨p, hp, rfl⟩ := List.mem_map.1 h'
    exact ⟨pairsOf_sublist hp, Or.inl rfl⟩
  · obtain ⟨p, hp, rfl⟩ := List.mem_map.1 h'
    exact ⟨triplesOf_sublist hp, Or.inr rfl⟩

/-- C6: hint path-membership filter.  Every non-answer hint returned by
`generateHints` references an unordered pair or triple of available cards for
which the reverse index yields a candidate that passes the containment check
and either equals the target or is a path member of the target's decomposition
(the recursive walk over immediate-component edges, at the call's depth
budget). -/
theorem generateHints_path_filter (fuel : Nat) (data : GameData) (t : String)
    (cards : List Card) (hints : List Hint)
    (h : generateHintsF fuel data t cards = some hints)
    (hint : Hint) (hh : hint ∈ hints) (hna : hint.isAnswer ≠ some true) :
    ∃ grp : List Card, grp.Sublist cards ∧ (grp.length = 2 ∨ grp.length = 3) ∧
      hint.cardIds.Perm (grp.map (fun c => c.id)) ∧
      ∃ cand ∈ (lookupG data.componentsToChars
          (canonicalKey (grp.map (fun c => c.character)))).getD [],
        hasEnoughComponents data (grp.map (fun c => c.character))
          (getComponentsForWord data cand) = true ∧
        (cand = t ∨ isPartOfDecompositionF data.charToDecomposition fuel cand t = some true) := by
  unfold generateHintsF at h
  cases hf : cards.find? (fun c => c.character == t) with
  | some c0 =>
    rw [hf] at h
    have he := Option.some.inj h
    rw [← he] at hh
    have hh' : hint = { cardIds := [c0.id], used := false, isAnswer := some true } :=
      List.mem_singleton.1 hh
    rw [hh'] at hna
    exact absurd rfl hna
  | none =>
    rw [hf] at h
    cases hsteps : findValidNextStepsF fuel data t cards with
    | none =>
      rw [hsteps] at h
      exact Option.noConfusion h
    | some validSteps =>
      rw [hsteps] at h
      have he := Option.some.inj h
      rw [← he] at hh
      obtain ⟨step, hstepmem, rfl⟩ := selectHints_mem hh
      have hstep' : step ∈ validSteps := stepTargetFirst_mem hstepmem
      obtain ⟨grp, hgrpmem, sub, hsubeq, hsmem⟩ := collectGroupsF_mem hsteps step hstep'
      obtain ⟨hsubl, hlen⟩ := hintGroups_mem hgrpmem
      obtain ⟨hids, cand, hcand, hres, henough, hpath⟩ := resultsLoopF_mem hsubeq step hsmem
      refine ⟨grp, hsubl, hlen, ?_, cand, hcand, henough, hpath⟩
      show (sortStrings step.cardIds).Perm (grp.map (fun c => c.id))
      rw [← hids]
      exact sortStrings_perm step.cardIds

/-- Witness for C6: the think example's single intermediate-step hint. -/
theorem generateHints_path_filter_witness :
    ∃ grp : List Card, grp.Sublist thinkCards ∧ (grp.length = 2 ∨ grp.length = 3) ∧
      (["1", "2"] : List String).Perm (grp.map (fun c => c.id)) ∧
      ∃ cand ∈ (lookupG thinkData.componentsToChars
          (canonicalKey (grp.map (fun c => c.character)))).getD [],
        hasEnoughComponents thinkData (grp.map (fun c => c.character))
          (getComponentsForWord thinkData cand) = true ∧
        (cand = "想" ∨
          isPartOfDecompositionF thinkData.charToDecomposition 1 cand "想" = some true) :=
  generateHints_path_filter 1 thinkData "想" thinkCards
    [{ cardIds := ["1", "2"], used := false, isAnswer := none }] (by decide)
    { cardIds := ["1", "2"], used := false, isAnswer := none } (by decide) (by decide)

/-- Witness for C8: the bright pool round-trips through decompose and combine. -/
theorem decompose_combine_roundtrip_witness :
    ∃ c1 c2 : Card,
      decomposeCard 0 { id := "x1", character := "明", isLeaf := false }
          [{ id := "x0", character := "大", isLeaf := true },
           { id := "x1", character := "明", isLeaf := false }] brightData =
        List.filter (fun c => c.id != "x1")
          [{ id := "x0", character := "大", isLeaf := true },
           { id := "x1", character := "明", isLeaf := false }] ++ [c1, c2] ∧
      c1.character = "日" ∧ c2.character = "月" ∧
      combineCards 1 [c1, c2] "明"
          (decomposeCard 0 { id := "x1", character := "明", isLeaf := false }
            [{ id := "x0", character := "大", isLeaf := true },
             { id := "x1", character := "明", isLeaf := false }] brightData) brightData =
        List.filter (fun c => c.id != "x1")
          [{ id := "x0", character := "大", isLeaf := true },
           { id := "x1", character := "明", isLeaf := false }] ++
          [{ id := "明" ++ "-combined-" ++ toString 1, character := "明", isLeaf := false }] ∧
      ((combineCards 1 [c1, c2] "明"
          (decomposeCard 0 { id := "x1", character := "明", isLeaf := false }
            [{ id := "x0", character := "大", isLeaf := true },
             { id := "x1", character := "明", isLeaf := false }] brightData) brightData).map
        (fun c => (c.character, c.isLeaf))).Perm
        (([{ id := "x0", character := "大", isLeaf := true },
           { id := "x1", character := "明", isLeaf := false }] : List Card).map
          (fun c => (c.character, c.isLeaf))) :=
  decompose_combine_roundtrip brightData
    [{ id := "x0", character := "大", isLeaf := true },
     { id := "x1", character := "明", isLeaf := false }]
    { id := "x1", character := "明", isLeaf := false } "日" "月" 0 1
    (by decide) (by decide) rfl (by decide) (by decide) (by decide)
